import Mathlib

/-!
Verification of the metadata pipeline of a Markdown article manager
(front-matter scanning, category/tag taxonomy statistics, merge operations,
archive export, and list/tree filtering).

Python dictionaries are embedded as association lists `List (String × α)`
preserving insertion order; dictionary reads take the first matching key,
in-place updates modify the first matching entry, and fresh keys are
appended at the end, exactly like CPython dicts (whose keys are unique,
so "first" is unambiguous).
-/

namespace HexoEditor

/-! ## Association-list primitives (embedding of Python dict operations) -/

/-- First value stored under key `k` (Python `d[k]` / `k in d`). -/
def alistGet {α : Type} : List (String × α) → String → Option α
  | [], _ => none
  | (k', v) :: rest, k => if k' = k then some v else alistGet rest k

/-- Update the value at the first occurrence of `k` (Python `d[k] = f d[k]`);
no effect when `k` is absent. -/
def modifyAt {α : Type} : List (String × α) → String → (α → α) → List (String × α)
  | [], _, _ => []
  | (k', v) :: rest, k, f =>
    if k' = k then (k', f v) :: rest else (k', v) :: modifyAt rest k f

/-- Remove the entries stored under key `k` (Python `d.pop(k)` / `del d[k]`). -/
def alistRemove {α : Type} : List (String × α) → String → List (String × α)
  | [], _ => []
  | (k', v) :: rest, k =>
    if k' = k then alistRemove rest k else (k', v) :: alistRemove rest k

/-- Insert `(k, z)` at the end when `k` is absent (Python
`if k not in d: d[k] = z`). -/
def ensureA {α : Type} (m : List (String × α)) (k : String) (z : α) : List (String × α) :=
  match alistGet m k with
  | some _ => m
  | none => m ++ [(k, z)]

/-- Map a function over all stored values, keeping keys and order. -/
def mapVal {α β : Type} (h : α → β) (m : List (String × α)) : List (String × β) :=
  m.map (fun p => (p.1, h p.2))

/-- Numeric lookup with default 0 (Python `d.get(k, 0)`). -/
def natLookup (m : List (String × Nat)) (k : String) : Nat :=
  match alistGet m k with
  | some v => v
  | none => 0

/-- Python `d[k] = d[k] + v if k in d else v`. -/
def addCount (m : List (String × Nat)) (k : String) (v : Nat) : List (String × Nat) :=
  match alistGet m k with
  | some _ => modifyAt m k (· + v)
  | none => m ++ [(k, v)]

@[simp] theorem alistGet_nil {α : Type} (k : String) :
    alistGet ([] : List (String × α)) k = none := rfl

theorem alistGet_cons {α : Type} (k' k : String) (v : α) (rest : List (String × α)) :
    alistGet ((k', v) :: rest) k = if k' = k then some v else alistGet rest k := rfl

theorem alistGet_append {α : Type} (a b : List (String × α)) (k : String) :
    alistGet (a ++ b) k =
      match alistGet a k with
      | some v => some v
      | none => alistGet b k := by
  induction a with
  | nil => simp
  | cons p rest ih =>
    obtain ⟨k', v⟩ := p
    by_cases h : k' = k <;> simp [alistGet, h, ih]

theorem alistGet_modifyAt_self {α : Type} (m : List (String × α)) (k : String) (f : α → α) :
    alistGet (modifyAt m k f) k = (alistGet m k).map f := by
  induction m with
  | nil => simp [modifyAt]
  | cons p rest ih =>
    obtain ⟨k', v⟩ := p
    by_cases h : k' = k <;> simp [modifyAt, alistGet, h, ih]

theorem alistGet_modifyAt_ne {α : Type} (m : List (String × α)) (k k' : String)
    (f : α → α) (h : k' ≠ k) :
    alistGet (modifyAt m k f) k' = alistGet m k' := by
  induction m with
  | nil => simp [modifyAt]
  | cons p rest ih =>
    obtain ⟨ka, v⟩ := p
    by_cases hk : ka = k
    · subst hk
      simp [modifyAt, alistGet, Ne.symm h, ih]
    · by_cases hk' : ka = k' <;> simp [modifyAt, alistGet, hk, hk', ih, h, Ne.symm h]

theorem alistGet_alistRemove_self {α : Type} (m : List (String × α)) (k : String) :
    alistGet (alistRemove m k) k = none := by
  induction m with
  | nil => simp [alistRemove]
  | cons p rest ih =>
    obtain ⟨k', v⟩ := p
    by_cases h : k' = k <;> simp [alistRemove, alistGet, h, ih]

theorem alistGet_alistRemove_ne {α : Type} (m : List (String × α)) (k k' : String)
    (h : k' ≠ k) : alistGet (alistRemove m k) k' = alistGet m k' := by
  induction m with
  | nil => simp [alistRemove]
  | cons p rest ih =>
    obtain ⟨ka, v⟩ := p
    by_cases hk : ka = k
    · subst hk
      simp [alistRemove, alistGet, Ne.symm h, ih]
    · by_cases hk' : ka = k' <;> simp [alistRemove, alistGet, hk, hk', ih, h, Ne.symm h]

theorem alistGet_ensureA {α : Type} (m : List (String × α)) (k k' : String) (z : α) :
    alistGet (ensureA m k z) k' =
      match alistGet m k' with
      | some v => some v
      | none => if k' = k then some z else none := by
  unfold ensureA
  cases hm : alistGet m k with
  | some v =>
    cases hm' : alistGet m k' with
    | some w => rfl
    | none =>
      by_cases h : k' = k
      · subst h
        rw [hm] at hm'
        exact absurd hm' (by simp)
      · simp [h]
  | none =>
    rw [alistGet_append]
    cases hm' : alistGet m k' with
    | some w => rfl
    | none =>
      by_cases h : k' = k
      · simp [alistGet, h]
      · simp [alistGet, h, Ne.symm h]

theorem modifyAt_of_get_none {α : Type} (m : List (String × α)) (k : String) (f : α → α)
    (h : alistGet m k = none) : modifyAt m k f = m := by
  induction m with
  | nil => rfl
  | cons p rest ih =>
    obtain ⟨k', v⟩ := p
    by_cases hk : k' = k
    · simp [alistGet, hk] at h
    · simp [modifyAt, hk]
      exact ih (by simpa [alistGet, hk] using h)

theorem modifyAt_append_of_get_some {α : Type} (a b : List (String × α)) (k : String)
    (f : α → α) (h : (alistGet a k).isSome) :
    modifyAt (a ++ b) k f = modifyAt a k f ++ b := by
  induction a with
  | nil => simp [alistGet] at h
  | cons p rest ih =>
    obtain ⟨k', v⟩ := p
    by_cases hk : k' = k
    · simp [modifyAt, hk]
    · simp [alistGet, hk] at h
      simp [modifyAt, hk, ih h]

theorem modifyAt_append_of_get_none {α : Type} (a b : List (String × α)) (k : String)
    (f : α → α) (h : alistGet a k = none) :
    modifyAt (a ++ b) k f = a ++ modifyAt b k f := by
  induction a with
  | nil => simp
  | cons p rest ih =>
    obtain ⟨k', v⟩ := p
    by_cases hk : k' = k
    · simp [alistGet, hk] at h
    · simp [modifyAt, hk]
      exact ih (by simpa [alistGet, hk] using h)

theorem modifyAt_modifyAt_self {α : Type} (m : List (String × α)) (k : String)
    (f g : α → α) : modifyAt (modifyAt m k f) k g = modifyAt m k (fun v => g (f v)) := by
  induction m with
  | nil => rfl
  | cons p rest ih =>
    obtain ⟨k', v⟩ := p
    by_cases hk : k' = k <;> simp [modifyAt, hk, ih]

theorem modifyAt_modifyAt_ne {α : Type} (m : List (String × α)) (k k' : String)
    (f g : α → α) (h : k ≠ k') :
    modifyAt (modifyAt m k f) k' g = modifyAt (modifyAt m k' g) k f := by
  induction m with
  | nil => rfl
  | cons p rest ih =>
    obtain ⟨ka, v⟩ := p
    by_cases hk : ka = k
    · subst hk
      simp [modifyAt, h, Ne.symm h]
    · by_cases hk' : ka = k' <;> simp [modifyAt, hk, hk', ih, Ne.symm h]

theorem modifyAt_congr_value {α : Type} (m : List (String × α)) (k : String)
    (f g : α → α) (h : ∀ v, alistGet m k = some v → f v = g v) :
    modifyAt m k f = modifyAt m k g := by
  induction m with
  | nil => rfl
  | cons p rest ih =>
    obtain ⟨k', v⟩ := p
    by_cases hk : k' = k
    · subst hk
      simp [modifyAt]
      exact h v (by simp [alistGet])
    · simp [modifyAt, hk]
      exact ih (fun w hw => h w (by simpa [alistGet, hk] using hw))

theorem modifyAt_id_of_value {α : Type} (m : List (String × α)) (k : String)
    (f : α → α) (h : ∀ v, alistGet m k = some v → f v = v) :
    modifyAt m k f = m := by
  induction m with
  | nil => rfl
  | cons p rest ih =>
    obtain ⟨k', v⟩ := p
    by_cases hk : k' = k
    · subst hk
      simp [modifyAt]
      exact h v (by simp [alistGet])
    · simp [modifyAt, hk]
      exact ih (fun w hw => h w (by simpa [alistGet, hk] using hw))

/-! ## Embedding of Python string primitives -/

/-- Location of the first occurrence of `sep` in a character list: the text
before it and the text after it (Python `s.find(sep)` used by `split`). -/
def findDelim (sep : List Char) : List Char → Option (List Char × List Char)
  | [] => none
  | c :: rest =>
    if sep.isPrefixOf (c :: rest) then some ([], (c :: rest).drop sep.length)
    else
      match findDelim sep rest with
      | some (p, q) => some (c :: p, q)
      | none => none

/-- Python `s.split(sep, maxsplit)` on character lists: split on the first
`maxsplit` non-overlapping occurrences of `sep`, scanning left to right. -/
def pySplit (sep : List Char) : Nat → List Char → List (List Char)
  | 0, s => [s]
  | n + 1, s =>
    match findDelim sep s with
    | none => [s]
    | some (pre, post) => pre :: pySplit sep n post

/-- Python `needle in hay` on character lists (substring containment). -/
def isInfixB (needle : List Char) : List Char → Bool
  | [] => needle.isEmpty
  | c :: rest => needle.isPrefixOf (c :: rest) || isInfixB needle rest

/-- Python `needle in hay` for strings. -/
def pyIn (needle hay : String) : Bool := isInfixB needle.data hay.data

/-- Python `s.lower()` (per-character ASCII lowering). -/
def pyLower (s : String) : String := ⟨s.data.map Char.toLower⟩

/-- Python `s.startswith(pre)`. -/
def pyStartsWith (pre s : String) : Bool := pre.data.isPrefixOf s.data

/-- Python `s.endswith(suf)`. -/
def pyEndsWith (suf s : String) : Bool := suf.data.isSuffixOf s.data

theorem findDelim_at_start (sep r : List Char) (h : sep ≠ []) :
    findDelim sep (sep ++ r) = some ([], r) := by
  match sep, h with
  | c :: cs, _ =>
    show findDelim (c :: cs) ((c :: cs) ++ r) = some ([], r)
    have hpre : (c :: cs).isPrefixOf ((c :: cs) ++ r) = true := by
      rw [List.isPrefixOf_iff_prefix]
      exact List.prefix_append _ _
    have : (c :: cs) ++ r = c :: (cs ++ r) := rfl
    rw [this] at hpre
    show findDelim (c :: cs) (c :: (cs ++ r)) = some ([], r)
    unfold findDelim
    rw [hpre]
    simp [List.drop_left]

theorem findDelim_none_of_no_occurrence (sep s : List Char)
    (h : isInfixB sep s = false) : findDelim sep s = none := by
  induction s with
  | nil => rfl
  | cons c rest ih =>
    unfold isInfixB at h
    simp only [Bool.or_eq_false_iff] at h
    unfold findDelim
    rw [h.1, ih h.2]
    simp

/-! ## Category store (`CategoryManager`)

State: Python dict from main-category name to
`{'count': n, 'subcategories': {name: count}}`. -/

/-- One main category's data: its count and its subcategory counts. -/
structure CatData where
  count : Nat
  subcategories : List (String × Nat)
deriving Repr, DecidableEq, Inhabited

/-- The category store (`self.categories`). -/
abbrev Cats := List (String × CatData)

/-- Python `cat.split('/', 1)` together with the `'/' in cat` test: the main
part and, when a separator is present, the subcategory part. -/
def splitCat (cat : String) : String × Option String :=
  match pySplit ['/'] 1 cat.data with
  | [m, s] => (String.mk m, some (String.mk s))
  | _ => (cat, none)

/-- Dispatch of the per-assignment tally step on the split assignment. -/
def tallyCatP (m : Cats) : String × Option String → Cats
  | (main, some sub) =>
    modifyAt
      (modifyAt (ensureA m main ⟨0, []⟩) main
        (fun d => { d with subcategories := ensureA d.subcategories sub 0 }))
      main
      (fun d =>
        { count := d.count + 1, subcategories := modifyAt d.subcategories sub (· + 1) })
  | (main, none) =>
    modifyAt (ensureA m main ⟨0, []⟩) main (fun d => { d with count := d.count + 1 })

/-- Per-assignment tally step of `CategoryManager.scan_articles`: ensure the
main (and sub) keys exist, then increment the main count (and the sub count). -/
def tallyCat (m : Cats) (cat : String) : Cats := tallyCatP m (splitCat cat)

/-- Key-creating half of `tallyCatP`: ensure the referenced keys exist. -/
def ensureCatP (m : Cats) : String × Option String → Cats
  | (main, some sub) =>
    modifyAt (ensureA m main ⟨0, []⟩) main
      (fun d => { d with subcategories := ensureA d.subcategories sub 0 })
  | (main, none) => ensureA m main ⟨0, []⟩

/-- Key-creating half of `tallyCat`. -/
def ensureCat (m : Cats) (cat : String) : Cats := ensureCatP m (splitCat cat)

/-- Counting half of `tallyCatP`: increment the referenced counts in place. -/
def incrCatP (m : Cats) : String × Option String → Cats
  | (main, some sub) =>
    modifyAt m main (fun d =>
      { count := d.count + 1, subcategories := modifyAt d.subcategories sub (· + 1) })
  | (main, none) => modifyAt m main (fun d => { d with count := d.count + 1 })

/-- Counting half of `tallyCat`. -/
def incrCat (m : Cats) (cat : String) : Cats := incrCatP m (splitCat cat)

/-- Reset phase of `scan_articles`: zero every count, keep every key. -/
def resetCounts (m : Cats) : Cats :=
  mapVal (fun d => ⟨0, mapVal (fun _ => 0) d.subcategories⟩) m

/-- Article record as produced by `FileLoader.run` and consumed everywhere. -/
structure Article where
  title : String
  date : String
  path : String
  categories : List String
  tags : List String
deriving Repr, DecidableEq, Inhabited

/-- All category-path assignments of an article list, in traversal order. -/
def allCats (arts : List Article) : List String :=
  arts.foldr (fun a acc => a.categories ++ acc) []

/-- `CategoryManager.scan_articles`: reset all counts, then tally every
category assignment of every article. -/
def scanArticles (cats : Cats) (arts : List Article) : Cats :=
  arts.foldl (fun c a => a.categories.foldl tallyCat c) (resetCounts cats)

/-! ## Rescan idempotence machinery -/

theorem isSome_alistGet_modifyAt {α : Type} (m : List (String × α)) (k k' : String)
    (f : α → α) : (alistGet (modifyAt m k f) k').isSome = (alistGet m k').isSome := by
  by_cases h : k' = k
  · subst h
    rw [alistGet_modifyAt_self]
    cases alistGet m k' <;> simp
  · rw [alistGet_modifyAt_ne _ _ _ _ h]

theorem ensureA_of_isSome {α : Type} (m : List (String × α)) (k : String) (z : α)
    (h : (alistGet m k).isSome) : ensureA m k z = m := by
  unfold ensureA
  cases hm : alistGet m k with
  | some v => rfl
  | none => rw [hm] at h; simp at h

theorem alistGet_ensureA_of_isSome {α : Type} (m : List (String × α)) (k k' : String)
    (z : α) (h : (alistGet m k').isSome) : alistGet (ensureA m k z) k' = alistGet m k' := by
  rw [alistGet_ensureA]
  cases hm : alistGet m k' with
  | some v => rfl
  | none => rw [hm] at h; simp at h

theorem alistGet_ensureA_self {α : Type} (m : List (String × α)) (k : String) (z : α) :
    alistGet (ensureA m k z) k = some ((alistGet m k).getD z) := by
  rw [alistGet_ensureA]
  cases alistGet m k <;> simp

theorem ensureA_modifyAt_comm {α : Type} (m : List (String × α)) (k k' : String)
    (f : α → α) (z : α) (h : (alistGet m k).isSome) :
    ensureA (modifyAt m k f) k' z = modifyAt (ensureA m k' z) k f := by
  cases hm' : alistGet m k' with
  | some v =>
    rw [ensureA_of_isSome _ _ _ (by simp [hm'] : (alistGet m k').isSome),
      ensureA_of_isSome _ _ _ (by rw [isSome_alistGet_modifyAt, hm']; rfl)]
  | none =>
    have hne : k' ≠ k := by
      intro he
      subst he
      rw [hm'] at h
      simp at h
    have h1 : alistGet (modifyAt m k f) k' = none := by
      rw [alistGet_modifyAt_ne _ _ _ _ hne, hm']
    unfold ensureA
    rw [h1, hm']
    exact (modifyAt_append_of_get_some _ _ _ _ h).symm

theorem modifyAt_id {α : Type} (m : List (String × α)) (k : String) :
    modifyAt m k (fun v => v) = m := by
  induction m with
  | nil => rfl
  | cons p rest ih =>
    obtain ⟨k', v⟩ := p
    by_cases hk : k' = k <;> simp [modifyAt, hk, ih]

theorem alistGet_mapVal {α β : Type} (h : α → β) (m : List (String × α)) (k : String) :
    alistGet (mapVal h m) k = (alistGet m k).map h := by
  induction m with
  | nil => simp [mapVal]
  | cons p rest ih =>
    obtain ⟨k', v⟩ := p
    by_cases hk : k' = k <;> simp [mapVal, alistGet, hk] at ih ⊢ <;> simpa using ih

theorem mapVal_modifyAt {α β : Type} (h : α → β) (f : α → α) (g : β → β)
    (m : List (String × α)) (k : String) (hfg : ∀ v, h (f v) = g (h v)) :
    mapVal h (modifyAt m k f) = modifyAt (mapVal h m) k g := by
  induction m with
  | nil => rfl
  | cons p rest ih =>
    obtain ⟨k', v⟩ := p
    by_cases hk : k' = k <;> simp [mapVal, modifyAt, hk, hfg] at ih ⊢ <;> simpa [mapVal] using ih

theorem mapVal_ensureA {α β : Type} (h : α → β) (m : List (String × α)) (k : String)
    (z : α) (z' : β) (hz : h z = z') :
    mapVal h (ensureA m k z) = ensureA (mapVal h m) k z' := by
  unfold ensureA
  rw [alistGet_mapVal]
  cases alistGet m k with
  | some v => rfl
  | none => simp [mapVal, hz]

/-- Presence of the keys referenced by one split category assignment. -/
def hasCatP (m : Cats) : String × Option String → Prop
  | (main, some sub) =>
    ∃ d, alistGet m main = some d ∧ (alistGet d.subcategories sub).isSome
  | (main, none) => (alistGet m main).isSome

/-- Presence of the keys referenced by one category assignment. -/
def hasCat (m : Cats) (cat : String) : Prop := hasCatP m (splitCat cat)

theorem tallyCat_eq_incr_ensure (m : Cats) (c : String) :
    tallyCat m c = incrCat (ensureCat m c) c := by
  unfold tallyCat incrCat ensureCat
  obtain ⟨main, osub⟩ := splitCat c
  cases osub <;> rfl

theorem hasCatP_ensureCatP_self (m : Cats) (p : String × Option String) :
    hasCatP (ensureCatP m p) p := by
  obtain ⟨main, osub⟩ := p
  cases osub with
  | none => simp [ensureCatP, hasCatP, alistGet_ensureA_self]
  | some sub =>
    simp only [ensureCatP, hasCatP]
    refine ⟨⟨((alistGet m main).getD ⟨0, []⟩).count,
            ensureA ((alistGet m main).getD ⟨0, []⟩).subcategories sub 0⟩, ?_, ?_⟩
    · rw [alistGet_modifyAt_self, alistGet_ensureA_self]
      rfl
    · simp [alistGet_ensureA_self]

theorem hasCat_ensureCat_self (m : Cats) (c : String) : hasCat (ensureCat m c) c :=
  hasCatP_ensureCatP_self m (splitCat c)

theorem ensureCatP_of_hasCatP (m : Cats) (p : String × Option String)
    (h : hasCatP m p) : ensureCatP m p = m := by
  obtain ⟨main, osub⟩ := p
  cases osub with
  | none => exact ensureA_of_isSome _ _ _ h
  | some sub =>
    obtain ⟨d, hd, hs⟩ := h
    simp only [ensureCatP]
    rw [ensureA_of_isSome _ _ _ (by simp [hd])]
    refine modifyAt_id_of_value _ _ _ ?_
    intro v hv
    rw [hd] at hv
    cases hv
    simp [ensureA_of_isSome _ _ _ hs]

theorem ensureCat_of_hasCat (m : Cats) (c : String) (h : hasCat m c) :
    ensureCat m c = m :=
  ensureCatP_of_hasCatP m (splitCat c) h

theorem hasCatP_ensureCatP_mono (m : Cats) (p q : String × Option String)
    (h : hasCatP m p) : hasCatP (ensureCatP m q) p := by
  obtain ⟨a, osa⟩ := p
  obtain ⟨b, osb⟩ := q
  cases osa with
  | none =>
    rcases Option.isSome_iff_exists.mp h with ⟨d, hd⟩
    cases osb with
    | none =>
      simp only [ensureCatP, hasCatP]
      rw [alistGet_ensureA_of_isSome _ _ _ _ (by rw [hd]; rfl), hd]
      rfl
    | some sb =>
      simp only [ensureCatP, hasCatP]
      rw [isSome_alistGet_modifyAt, alistGet_ensureA_of_isSome _ _ _ _ (by rw [hd]; rfl), hd]
      rfl
  | some sa =>
    obtain ⟨d, hd, hs⟩ := h
    cases osb with
    | none =>
      exact ⟨d, by rw [show ensureCatP m (b, none) = ensureA m b ⟨0, []⟩ from rfl,
        alistGet_ensureA_of_isSome _ _ _ _ (by simp [hd]), hd], hs⟩
    | some sb =>
      simp only [ensureCatP, hasCatP]
      have hy : alistGet (ensureA m b ⟨0, []⟩) a = some d := by
        rw [alistGet_ensureA_of_isSome _ _ _ _ (by simp [hd]), hd]
      by_cases hab : a = b
      · subst hab
        refine ⟨_, by rw [alistGet_modifyAt_self, hy]; rfl, ?_⟩
        by_cases hsab : sa = sb
        · subst hsab
          simp [alistGet_ensureA_self]
        · rw [alistGet_ensureA_of_isSome _ _ _ _ hs]
          exact hs
      · exact ⟨d, by rw [alistGet_modifyAt_ne _ _ _ _ hab, hy], hs⟩

theorem hasCat_ensureCat_mono (m : Cats) (c c' : String) (h : hasCat m c) :
    hasCat (ensureCat m c') c :=
  hasCatP_ensureCatP_mono m (splitCat c) (splitCat c') h

theorem hasCatP_isSome_main (x : Cats) (a : String) (osa : Option String)
    (h : hasCatP x (a, osa)) : (alistGet x a).isSome := by
  cases osa with
  | none => exact h
  | some sa =>
    obtain ⟨d, hd, _⟩ := h
    rw [hd]
    rfl

theorem ensureCatP_incrCatP_comm (x : Cats) (p q : String × Option String)
    (h : hasCatP x p) : ensureCatP (incrCatP x p) q = incrCatP (ensureCatP x q) p := by
  obtain ⟨a, osa⟩ := p
  obtain ⟨b, osb⟩ := q
  have hsome : (alistGet x a).isSome := hasCatP_isSome_main x a osa h
  cases osb with
  | none =>
    cases osa with
    | none => exact ensureA_modifyAt_comm x a b _ _ hsome
    | some sa => exact ensureA_modifyAt_comm x a b _ _ hsome
  | some sb =>
    have hstep : ∀ F : CatData → CatData,
        ensureA (modifyAt x a F) b ⟨0, []⟩ = modifyAt (ensureA x b ⟨0, []⟩) a F :=
      fun F => ensureA_modifyAt_comm x a b F _ hsome
    cases osa with
    | none =>
      simp only [ensureCatP, incrCatP]
      rw [hstep]
      by_cases hab : a = b
      · subst hab
        rw [modifyAt_modifyAt_self, modifyAt_modifyAt_self]
      · exact (modifyAt_modifyAt_ne _ a b _ _ hab)
    | some sa =>
      obtain ⟨d₀, hd₀, hs₀⟩ := h
      simp only [ensureCatP, incrCatP]
      rw [hstep]
      by_cases hab : a = b
      · subst hab
        rw [modifyAt_modifyAt_self, modifyAt_modifyAt_self]
        refine modifyAt_congr_value _ _ _ _ ?_
        intro v hv
        rw [alistGet_ensureA_of_isSome _ _ _ _ hsome, hd₀] at hv
        cases hv
        show CatData.mk _ _ = CatData.mk _ _
        rw [ensureA_modifyAt_comm _ _ _ _ _ hs₀]
      · exact (modifyAt_modifyAt_ne _ a b _ _ hab)

theorem foldl_ensureCat_incrCat_comm (l : List String) (x : Cats) (c : String)
    (h : hasCat x c) :
    List.foldl ensureCat (incrCat x c) l = incrCat (List.foldl ensureCat x l) c := by
  induction l generalizing x with
  | nil => rfl
  | cons c' l ih =>
    show List.foldl ensureCat (ensureCat (incrCat x c) c') l
        = incrCat (List.foldl ensureCat (ensureCat x c') l) c
    rw [show ensureCat (incrCat x c) c' = incrCat (ensureCat x c') c from
      ensureCatP_incrCatP_comm x (splitCat c) (splitCat c') h]
    exact ih (ensureCat x c') (hasCat_ensureCat_mono x c c' h)

theorem foldl_tallyCat_decomp (l : List String) (m : Cats) :
    List.foldl tallyCat m l = List.foldl incrCat (List.foldl ensureCat m l) l := by
  induction l generalizing m with
  | nil => rfl
  | cons c l ih =>
    show List.foldl tallyCat (tallyCat m c) l
        = List.foldl incrCat (incrCat (List.foldl ensureCat (ensureCat m c) l) c) l
    rw [tallyCat_eq_incr_ensure, ih,
      foldl_ensureCat_incrCat_comm l (ensureCat m c) c (hasCat_ensureCat_self m c)]

theorem hasCat_foldl_ensureCat_mono (l : List String) (m : Cats) (c : String)
    (h : hasCat m c) : hasCat (List.foldl ensureCat m l) c := by
  induction l generalizing m with
  | nil => exact h
  | cons c' l ih => exact ih (ensureCat m c') (hasCat_ensureCat_mono m c c' h)

theorem hasCat_foldl_ensureCat_of_mem (l : List String) (m : Cats) (c : String)
    (h : c ∈ l) : hasCat (List.foldl ensureCat m l) c := by
  induction l generalizing m with
  | nil => cases h
  | cons c' l ih =>
    rcases List.mem_cons.mp h with h' | h'
    · subst h'
      exact hasCat_foldl_ensureCat_mono l (ensureCat m c) c (hasCat_ensureCat_self m c)
    · exact ih (ensureCat m c') h'

theorem foldl_ensureCat_of_all_hasCat (l : List String) (x : Cats)
    (h : ∀ c ∈ l, hasCat x c) : List.foldl ensureCat x l = x := by
  induction l with
  | nil => rfl
  | cons c l ih =>
    show List.foldl ensureCat (ensureCat x c) l = x
    rw [ensureCat_of_hasCat x c (h c (List.mem_cons_self c l))]
    exact ih (fun c' hc' => h c' (List.mem_cons_of_mem c hc'))

theorem foldl_ensureCat_idem (l : List String) (m : Cats) :
    List.foldl ensureCat (List.foldl ensureCat m l) l = List.foldl ensureCat m l :=
  foldl_ensureCat_of_all_hasCat l _ (fun c hc => hasCat_foldl_ensureCat_of_mem l m c hc)

/-- Value half of `resetCounts`: zero one node's counts, keep its keys. -/
def resetData (d : CatData) : CatData := ⟨0, mapVal (fun _ => 0) d.subcategories⟩

theorem resetCounts_eq_mapVal (m : Cats) : resetCounts m = mapVal resetData m := rfl

theorem mapVal_comp {α β γ : Type} (g : β → γ) (h : α → β) (m : List (String × α)) :
    mapVal g (mapVal h m) = mapVal (fun v => g (h v)) m := by
  unfold mapVal
  rw [List.map_map]
  rfl

theorem mapVal_zero_modifyAt (s : List (String × Nat)) (k : String) (g : Nat → Nat) :
    mapVal (fun _ => 0) (modifyAt s k g) = mapVal (fun _ => 0) s := by
  rw [mapVal_modifyAt (fun _ => (0 : Nat)) g (fun v => v) s k (fun v => rfl), modifyAt_id]

theorem resetData_resetData (d : CatData) : resetData (resetData d) = resetData d := by
  unfold resetData
  show CatData.mk _ _ = CatData.mk _ _
  rw [mapVal_comp]

theorem resetCounts_resetCounts (m : Cats) : resetCounts (resetCounts m) = resetCounts m := by
  show mapVal resetData (mapVal resetData m) = mapVal resetData m
  rw [mapVal_comp, funext resetData_resetData]

theorem resetCounts_incrCat (m : Cats) (c : String) :
    resetCounts (incrCat m c) = resetCounts m := by
  unfold incrCat
  obtain ⟨a, osa⟩ := splitCat c
  cases osa with
  | none =>
    have hfg : ∀ v : CatData,
        resetData ({ v with count := v.count + 1 }) = resetData v := fun v => rfl
    show resetCounts (modifyAt m a _) = resetCounts m
    rw [resetCounts_eq_mapVal, resetCounts_eq_mapVal,
      mapVal_modifyAt resetData _ (fun v => v) m a hfg, modifyAt_id]
  | some sa =>
    have hfg : ∀ v : CatData,
        resetData ⟨v.count + 1, modifyAt v.subcategories sa (· + 1)⟩ = resetData v := by
      intro v
      simp only [resetData]
      rw [mapVal_zero_modifyAt]
    show resetCounts (modifyAt m a _) = resetCounts m
    rw [resetCounts_eq_mapVal, resetCounts_eq_mapVal,
      mapVal_modifyAt resetData _ (fun v => v) m a hfg, modifyAt_id]

theorem resetData_zero : resetData ⟨0, []⟩ = ⟨0, []⟩ := rfl

theorem resetCounts_ensureCat (m : Cats) (c : String) :
    resetCounts (ensureCat m c) = ensureCat (resetCounts m) c := by
  unfold ensureCat
  obtain ⟨a, osa⟩ := splitCat c
  cases osa with
  | none =>
    show resetCounts (ensureA m a ⟨0, []⟩) = ensureA (resetCounts m) a ⟨0, []⟩
    rw [resetCounts_eq_mapVal, resetCounts_eq_mapVal,
      mapVal_ensureA resetData m a _ _ resetData_zero]
  | some sa =>
    show resetCounts (modifyAt (ensureA m a ⟨0, []⟩) a _)
        = modifyAt (ensureA (resetCounts m) a ⟨0, []⟩) a _
    have hfg : ∀ v : CatData,
        resetData ({ v with subcategories := ensureA v.subcategories sa 0 })
          = { resetData v with subcategories := ensureA (resetData v).subcategories sa 0 } := by
      intro v
      simp only [resetData]
      show CatData.mk _ _ = CatData.mk _ _
      rw [mapVal_ensureA (fun _ => 0) _ sa 0 0 rfl]
    rw [resetCounts_eq_mapVal, resetCounts_eq_mapVal,
      mapVal_modifyAt resetData _
        (fun d => { d with subcategories := ensureA d.subcategories sa 0 }) _ a hfg,
      mapVal_ensureA resetData m a _ _ resetData_zero]

theorem resetCounts_tallyCat (m : Cats) (c : String) :
    resetCounts (tallyCat m c) = ensureCat (resetCounts m) c := by
  rw [tallyCat_eq_incr_ensure, resetCounts_incrCat, resetCounts_ensureCat]

theorem resetCounts_foldl_tallyCat (l : List String) (m : Cats) :
    resetCounts (List.foldl tallyCat m l) = List.foldl ensureCat (resetCounts m) l := by
  induction l generalizing m with
  | nil => rfl
  | cons c l ih =>
    show resetCounts (List.foldl tallyCat (tallyCat m c) l)
        = List.foldl ensureCat (ensureCat (resetCounts m) c) l
    rw [ih, resetCounts_tallyCat]

theorem foldl_nested_eq_allCats (arts : List Article) (m : Cats) :
    arts.foldl (fun c a => a.categories.foldl tallyCat c) m
      = List.foldl tallyCat m (allCats arts) := by
  induction arts generalizing m with
  | nil => rfl
  | cons a arts ih =>
    show arts.foldl (fun c a => a.categories.foldl tallyCat c) (a.categories.foldl tallyCat m)
        = List.foldl tallyCat m (a.categories ++ allCats arts)
    rw [List.foldl_append, ih]

/-- Claim C3: a category rescan is idempotent — rescanning an unchanged
article list reproduces the exact same store (same keys, same order, same
main-category counts, same subcategory counts). -/
theorem scan_articles_idempotent (cats : Cats) (arts : List Article) :
    scanArticles (scanArticles cats arts) arts = scanArticles cats arts := by
  unfold scanArticles
  rw [foldl_nested_eq_allCats, foldl_nested_eq_allCats,
    resetCounts_foldl_tallyCat, resetCounts_resetCounts,
    foldl_tallyCat_decomp (allCats arts)
      (List.foldl ensureCat (resetCounts cats) (allCats arts)),
    foldl_ensureCat_idem,
    ← foldl_tallyCat_decomp (allCats arts) (resetCounts cats)]

/-! ## Count characterization of the rescan (claim C4) -/

/-- Count displayed for a main category (0 when the key is absent). -/
def mainCount (m : Cats) (k : String) : Nat :=
  match alistGet m k with
  | some d => d.count
  | none => 0

/-- Count displayed for a subcategory (0 when either key is absent). -/
def subCount (m : Cats) (k s : String) : Nat :=
  match alistGet m k with
  | some d => natLookup d.subcategories s
  | none => 0

theorem natLookup_ensure_incr_self (s : List (String × Nat)) (k : String) (v : Nat) :
    natLookup (modifyAt (ensureA s k 0) k (· + v)) k = natLookup s k + v := by
  unfold natLookup
  rw [alistGet_modifyAt_self, alistGet_ensureA_self]
  cases alistGet s k <;> simp

theorem natLookup_ensure_incr_ne (s : List (String × Nat)) (k : String) (v : Nat)
    (s' : String) (h : s' ≠ k) :
    natLookup (modifyAt (ensureA s k 0) k (· + v)) s' = natLookup s s' := by
  unfold natLookup
  rw [alistGet_modifyAt_ne _ _ _ _ h, alistGet_ensureA]
  cases alistGet s s' with
  | some w => rfl
  | none => simp [h]

theorem mainCount_tallyCatP (m : Cats) (a : String) (osa : Option String) (k : String) :
    mainCount (tallyCatP m (a, osa)) k = mainCount m k + (if a = k then 1 else 0) := by
  by_cases hak : a = k
  · subst hak
    cases osa with
    | none =>
      unfold tallyCatP mainCount
      rw [alistGet_modifyAt_self, alistGet_ensureA_self]
      cases alistGet m a <;> simp
    | some sa =>
      unfold tallyCatP mainCount
      rw [alistGet_modifyAt_self, alistGet_modifyAt_self, alistGet_ensureA_self]
      cases alistGet m a <;> simp
  · have hget : alistGet (ensureA m a (⟨0, []⟩ : CatData)) k = alistGet m k := by
      rw [alistGet_ensureA]
      cases alistGet m k with
      | some w => rfl
      | none => simp [Ne.symm hak]
    cases osa with
    | none =>
      unfold tallyCatP mainCount
      rw [alistGet_modifyAt_ne _ _ _ _ (Ne.symm hak), hget]
      cases alistGet m k <;> simp [hak]
    | some sa =>
      unfold tallyCatP mainCount
      rw [alistGet_modifyAt_ne _ _ _ _ (Ne.symm hak),
        alistGet_modifyAt_ne _ _ _ _ (Ne.symm hak), hget]
      cases alistGet m k <;> simp [hak]

theorem subCount_tallyCatP (m : Cats) (a : String) (osa : Option String)
    (k s : String) :
    subCount (tallyCatP m (a, osa)) k s
      = subCount m k s + (if (a, osa) = (k, some s) then 1 else 0) := by
  by_cases hak : a = k
  · subst hak
    cases osa with
    | none =>
      unfold tallyCatP subCount
      rw [alistGet_modifyAt_self, alistGet_ensureA_self]
      cases alistGet m a <;> simp [natLookup]
    | some sa =>
      unfold tallyCatP subCount
      rw [alistGet_modifyAt_self, alistGet_modifyAt_self, alistGet_ensureA_self]
      show natLookup
          (modifyAt (ensureA ((alistGet m a).getD ⟨0, []⟩).subcategories sa 0) sa (· + 1)) s
        = _
      by_cases hs : s = sa
      · subst hs
        rw [natLookup_ensure_incr_self]
        cases hma : alistGet m a with
        | some d => simp [natLookup]
        | none => simp [natLookup]
      · rw [natLookup_ensure_incr_ne _ _ _ _ hs]
        cases hma : alistGet m a with
        | some d => simp [Ne.symm hs]
        | none => simp [natLookup, Ne.symm hs]
  · have hget : alistGet (ensureA m a (⟨0, []⟩ : CatData)) k = alistGet m k := by
      rw [alistGet_ensureA]
      cases alistGet m k with
      | some w => rfl
      | none => simp [Ne.symm hak]
    cases osa with
    | none =>
      unfold tallyCatP subCount
      rw [alistGet_modifyAt_ne _ _ _ _ (Ne.symm hak), hget]
      cases alistGet m k <;> simp [hak]
    | some sa =>
      unfold tallyCatP subCount
      rw [alistGet_modifyAt_ne _ _ _ _ (Ne.symm hak),
        alistGet_modifyAt_ne _ _ _ _ (Ne.symm hak), hget]
      cases alistGet m k <;> simp [hak]

theorem mainCount_resetCounts (m : Cats) (k : String) :
    mainCount (resetCounts m) k = 0 := by
  unfold mainCount
  rw [resetCounts_eq_mapVal, alistGet_mapVal]
  cases alistGet m k <;> simp [resetData]

theorem subCount_resetCounts (m : Cats) (k s : String) :
    subCount (resetCounts m) k s = 0 := by
  unfold subCount
  rw [resetCounts_eq_mapVal, alistGet_mapVal]
  cases alistGet m k with
  | none => rfl
  | some d =>
    show natLookup (resetData d).subcategories s = 0
    unfold resetData natLookup
    rw [alistGet_mapVal]
    cases alistGet d.subcategories s <;> rfl

theorem mainCount_foldl_tallyCat (l : List String) (m : Cats) (k : String) :
    mainCount (List.foldl tallyCat m l) k
      = mainCount m k + List.countP (fun c => decide ((splitCat c).1 = k)) l := by
  induction l generalizing m with
  | nil => simp
  | cons c l ih =>
    show mainCount (List.foldl tallyCat (tallyCat m c) l) k = _
    rw [ih, List.countP_cons]
    have hc : tallyCat m c = tallyCatP m ((splitCat c).1, (splitCat c).2) := by
      unfold tallyCat
      rfl
    rw [hc, mainCount_tallyCatP]
    by_cases h : (splitCat c).1 = k
    · rw [if_pos h, if_pos (by simpa using h)]
      omega
    · rw [if_neg h, if_neg (by simpa using h)]
      omega

theorem subCount_foldl_tallyCat (l : List String) (m : Cats) (k s : String) :
    subCount (List.foldl tallyCat m l) k s
      = subCount m k s + List.countP (fun c => decide (splitCat c = (k, some s))) l := by
  induction l generalizing m with
  | nil => simp
  | cons c l ih =>
    show subCount (List.foldl tallyCat (tallyCat m c) l) k s = _
    rw [ih, List.countP_cons]
    have hc : tallyCat m c = tallyCatP m ((splitCat c).1, (splitCat c).2) := by
      unfold tallyCat
      rfl
    rw [hc, subCount_tallyCatP]
    by_cases h : splitCat c = (k, some s)
    · rw [if_pos (show ((splitCat c).1, (splitCat c).2) = (k, some s) by rw [← h]),
        if_pos (by simpa using h)]
      omega
    · rw [if_neg (show ¬ ((splitCat c).1, (splitCat c).2) = (k, some s) from
        fun hcon => h (by rw [← hcon])), if_neg (by simpa using h)]
      omega

/-- Claim C4: after a rescan, a main category's count is the number of
assignments whose path references that main name (bare or `Main/Sub`), and a
subcategory's count is the number of assignments using the full `Main/Sub`
form. -/
theorem scan_articles_count_spec (cats : Cats) (arts : List Article) :
    (∀ k, mainCount (scanArticles cats arts) k
        = List.countP (fun c => decide ((splitCat c).1 = k)) (allCats arts))
    ∧ (∀ k s, subCount (scanArticles cats arts) k s
        = List.countP (fun c => decide (splitCat c = (k, some s))) (allCats arts)) := by
  constructor
  · intro k
    unfold scanArticles
    rw [foldl_nested_eq_allCats, mainCount_foldl_tallyCat, mainCount_resetCounts]
    omega
  · intro k s
    unfold scanArticles
    rw [foldl_nested_eq_allCats, subCount_foldl_tallyCat, subCount_resetCounts]
    omega

/-! ## Category and tag merge (`merge_categories` / `merge_tags`) -/

/-- A selected tree item: a top-level category or a subcategory under its
parent (Qt items are classified by whether `item.parent()` is set). -/
inductive NodeRef where
  | top (name : String)
  | sub (parent : String) (name : String)
deriving Repr, DecidableEq

/-- Merge case 1 (top + top): pop the source, add its count into the target,
fold its subcategories into the target's (summing on collision). A missing
key raises `KeyError`, caught by the surrounding handler, so the state as
mutated so far is returned. -/
def mergeTopTop (cats : Cats) (sn tn : String) : Cats :=
  match alistGet cats sn with
  | none => cats
  | some sd =>
    match alistGet (alistRemove cats sn) tn with
    | none => alistRemove cats sn
    | some _ =>
      modifyAt (alistRemove cats sn) tn (fun d =>
        ⟨d.count + sd.count,
         sd.subcategories.foldl (fun acc p => addCount acc p.1 p.2) d.subcategories⟩)

/-- Merge case 2 (sub + sub): pop the source child count, add it under the
target's parent at the target's key (sum or create). -/
def mergeSubSub (cats : Cats) (spn sn tpn tn : String) : Cats :=
  match alistGet cats spn with
  | none => cats
  | some spd =>
    match alistGet spd.subcategories sn with
    | none => cats
    | some sc =>
      let cats1 := modifyAt cats spn
        (fun d => { d with subcategories := alistRemove d.subcategories sn })
      match alistGet cats1 tpn with
      | none => cats1
      | some _ =>
        modifyAt cats1 tpn (fun d =>
          { d with subcategories := addCount d.subcategories tn sc })

/-- Merge case 3 (sub + top): pop the source child count, add it into the
target's own count. -/
def mergeSubTop (cats : Cats) (spn sn tn : String) : Cats :=
  match alistGet cats spn with
  | none => cats
  | some spd =>
    match alistGet spd.subcategories sn with
    | none => cats
    | some sc =>
      let cats1 := modifyAt cats spn
        (fun d => { d with subcategories := alistRemove d.subcategories sn })
      match alistGet cats1 tn with
      | none => cats1
      | some _ => modifyAt cats1 tn (fun d => { d with count := d.count + sc })

/-- Merge case 4 (top + sub): pop the source node entirely, add its count
under the target's parent at the target's key, then insert every source
child as a sibling of the target (summing on collision). When the parent
lookup after the pop raises, the partially mutated state is kept. -/
def mergeTopIntoSub (cats : Cats) (sn tpn tn : String) : Cats :=
  match alistGet cats sn with
  | none => cats
  | some sd =>
    match alistGet (alistRemove cats sn) tpn with
    | none => alistRemove cats sn
    | some _ =>
      modifyAt (alistRemove cats sn) tpn (fun d =>
        ⟨d.count,
         sd.subcategories.foldl (fun acc p => addCount acc p.1 p.2)
           (addCount d.subcategories tn sd.count)⟩)

/-- Case dispatch of `CategoryManager.merge_categories` on the parents of
the two selected items. -/
def mergeDispatch (cats : Cats) (s t : NodeRef) : Cats :=
  match s, t with
  | NodeRef.top sn, NodeRef.top tn => mergeTopTop cats sn tn
  | NodeRef.sub spn sn, NodeRef.sub tpn tn => mergeSubSub cats spn sn tpn tn
  | NodeRef.sub spn sn, NodeRef.top tn => mergeSubTop cats spn sn tn
  | NodeRef.top sn, NodeRef.sub tpn tn => mergeTopIntoSub cats sn tpn tn

/-- `CategoryManager.merge_categories`: requires exactly two selected items,
otherwise rejects with a warning and leaves the store unchanged. -/
def mergeCategoriesSel (cats : Cats) (items : List NodeRef) : Cats :=
  match items with
  | [s, t] => mergeDispatch cats s t
  | _ => cats

/-- The tag store (`self.tags`): tag name to usage count. -/
abbrev Tags := List (String × Nat)

/-- `TagManager.merge_tags`: requires exactly two selected items, otherwise
rejects with a warning; else adds the second tag's count into the first and
deletes the second. -/
def mergeTagsSel (tags : Tags) (items : List String) : Tags :=
  match items with
  | [t1, t2] =>
    match alistGet tags t1, alistGet tags t2 with
    | some _, some c2 => alistRemove (modifyAt tags t1 (· + c2)) t2
    | _, _ => tags
  | _ => tags

/-- Claim C5: with a number of selected nodes different from two, both
merges reject and leave their store untouched. -/
theorem merge_rejects_unless_two_selected (cats : Cats) (tags : Tags)
    (itemsC : List NodeRef) (itemsT : List String)
    (hC : itemsC.length ≠ 2) (hT : itemsT.length ≠ 2) :
    mergeCategoriesSel cats itemsC = cats ∧ mergeTagsSel tags itemsT = tags := by
  constructor
  · cases itemsC with
    | nil => rfl
    | cons a t =>
      cases t with
      | nil => rfl
      | cons b t2 =>
        cases t2 with
        | nil => exact absurd rfl hC
        | cons c t3 => rfl
  · cases itemsT with
    | nil => rfl
    | cons a t =>
      cases t with
      | nil => rfl
      | cons b t2 =>
        cases t2 with
        | nil => exact absurd rfl hT
        | cons c t3 => rfl

/-- Witness for C5 at a one-element and a three-element selection. -/
theorem merge_rejects_unless_two_selected_witness :
    ([NodeRef.top "A"] : List NodeRef).length ≠ 2
    ∧ (["x", "y", "z"] : List String).length ≠ 2
    ∧ (mergeCategoriesSel [("A", ⟨3, [("x", 1)]⟩)] [NodeRef.top "A"]
        = [("A", ⟨3, [("x", 1)]⟩)]
      ∧ mergeTagsSel [("t", 2)] ["x", "y", "z"] = [("t", 2)]) :=
  ⟨by decide, by decide,
    merge_rejects_unless_two_selected [("A", ⟨3, [("x", 1)]⟩)] [("t", 2)]
      [NodeRef.top "A"] ["x", "y", "z"] (by decide) (by decide)⟩

/-! ## Merge case 4 (claim C1) -/

theorem natLookup_addCount (s : List (String × Nat)) (k k' : String) (v : Nat) :
    natLookup (addCount s k v) k' = natLookup s k' + if k' = k then v else 0 := by
  unfold addCount
  cases hs : alistGet s k with
  | some w =>
    by_cases h : k' = k
    · subst h
      unfold natLookup
      rw [alistGet_modifyAt_self, hs]
      simp
    · unfold natLookup
      rw [alistGet_modifyAt_ne _ _ _ _ h]
      simp [h]
  | none =>
    unfold natLookup
    rw [alistGet_append]
    cases hs' : alistGet s k' with
    | some w =>
      have h : k' ≠ k := by
        intro he
        subst he
        rw [hs] at hs'
        cases hs'
      simp [h]
    | none =>
      by_cases h : k' = k
      · subst h
        simp [alistGet_cons]
      · simp [alistGet_cons, Ne.symm h, h]

/-- Total of the values carried by key `k` in an association list. -/
def sumForKey (l : List (String × Nat)) (k : String) : Nat :=
  ((l.filter (fun p => decide (p.1 = k))).map (fun p => p.2)).sum

theorem natLookup_foldl_addCount (l : List (String × Nat))
    (s : List (String × Nat)) (k : String) :
    natLookup (l.foldl (fun acc p => addCount acc p.1 p.2) s) k
      = natLookup s k + sumForKey l k := by
  induction l generalizing s with
  | nil => simp [sumForKey]
  | cons p l ih =>
    show natLookup (l.foldl _ (addCount s p.1 p.2)) k = _
    rw [ih, natLookup_addCount]
    unfold sumForKey
    by_cases h : p.1 = k
    · rw [if_pos h.symm, List.filter_cons_of_pos (by simpa using h)]
      simp only [List.map_cons, List.sum_cons]
      omega
    · rw [if_neg (fun he => h he.symm), List.filter_cons_of_neg (by simpa using h)]
      omega

/-- Claim C1 (amended): merge case 4 behaves as specified provided the
top-level source is not itself the target's parent: the source disappears
from the top level, its count is added at the target's key under the
target's parent, every source child lands as a sibling of the target keyed
by its own name (summed on collision), and no other top-level entry moves. -/
theorem merge_top_into_sub_spec (cats : Cats) (sn tpn tn : String)
    (sd tp : CatData) (hs : alistGet cats sn = some sd)
    (ht : alistGet cats tpn = some tp) (hne : sn ≠ tpn) :
    (alistGet (mergeCategoriesSel cats [NodeRef.top sn, NodeRef.sub tpn tn]) sn = none)
    ∧ (∃ d, alistGet (mergeCategoriesSel cats [NodeRef.top sn, NodeRef.sub tpn tn]) tpn
          = some d
        ∧ d.count = tp.count
        ∧ natLookup d.subcategories tn
            = natLookup tp.subcategories tn + sd.count + sumForKey sd.subcategories tn
        ∧ (∀ n, n ≠ tn →
            natLookup d.subcategories n
              = natLookup tp.subcategories n + sumForKey sd.subcategories n))
    ∧ (∀ k, k ≠ sn → k ≠ tpn →
        alistGet (mergeCategoriesSel cats [NodeRef.top sn, NodeRef.sub tpn tn]) k
          = alistGet cats k) := by
  have ht1 : alistGet (alistRemove cats sn) tpn = some tp := by
    rw [alistGet_alistRemove_ne _ _ _ (Ne.symm hne), ht]
  have hsel : mergeCategoriesSel cats [NodeRef.top sn, NodeRef.sub tpn tn]
      = modifyAt (alistRemove cats sn) tpn (fun d =>
          ⟨d.count,
           sd.subcategories.foldl (fun acc p => addCount acc p.1 p.2)
             (addCount d.subcategories tn sd.count)⟩) := by
    show mergeTopIntoSub cats sn tpn tn = _
    unfold mergeTopIntoSub
    rw [hs, ht1]
  refine ⟨?_, ?_, ?_⟩
  · rw [hsel, alistGet_modifyAt_ne _ _ _ _ hne, alistGet_alistRemove_self]
  · refine ⟨⟨tp.count,
      sd.subcategories.foldl (fun acc p => addCount acc p.1 p.2)
        (addCount tp.subcategories tn sd.count)⟩, ?_, rfl, ?_, ?_⟩
    · rw [hsel, alistGet_modifyAt_self, ht1]
      rfl
    · rw [natLookup_foldl_addCount, natLookup_addCount, if_pos rfl]
    · intro n hn
      rw [natLookup_foldl_addCount, natLookup_addCount, if_neg hn]
      omega
  · intro k hk1 hk2
    rw [hsel, alistGet_modifyAt_ne _ _ _ _ hk2, alistGet_alistRemove_ne _ _ _ hk1]

/-- Witness for C1 on the spec's own example: `A = {count 2, children {x: 1}}`
merged into subcategory `C/y` with `C.children[y] = 5`. -/
theorem merge_top_into_sub_spec_witness :
    alistGet [("A", CatData.mk 2 [("x", 1)]), ("C", CatData.mk 9 [("y", 5)])] "A"
      = some (CatData.mk 2 [("x", 1)])
    ∧ alistGet [("A", CatData.mk 2 [("x", 1)]), ("C", CatData.mk 9 [("y", 5)])] "C"
      = some (CatData.mk 9 [("y", 5)])
    ∧ "A" ≠ "C"
    ∧ ((alistGet (mergeCategoriesSel
          [("A", CatData.mk 2 [("x", 1)]), ("C", CatData.mk 9 [("y", 5)])]
          [NodeRef.top "A", NodeRef.sub "C" "y"]) "A" = none)
      ∧ (∃ d, alistGet (mergeCategoriesSel
            [("A", CatData.mk 2 [("x", 1)]), ("C", CatData.mk 9 [("y", 5)])]
            [NodeRef.top "A", NodeRef.sub "C" "y"]) "C" = some d
          ∧ d.count = (CatData.mk 9 [("y", 5)]).count
          ∧ natLookup d.subcategories "y"
              = natLookup [("y", 5)] "y" + 2 + sumForKey [("x", 1)] "y"
          ∧ (∀ n, n ≠ "y" →
              natLookup d.subcategories n
                = natLookup [("y", 5)] n + sumForKey [("x", 1)] n))
      ∧ (∀ k, k ≠ "A" → k ≠ "C" →
          alistGet (mergeCategoriesSel
            [("A", CatData.mk 2 [("x", 1)]), ("C", CatData.mk 9 [("y", 5)])]
            [NodeRef.top "A", NodeRef.sub "C" "y"]) k
            = alistGet [("A", CatData.mk 2 [("x", 1)]), ("C", CatData.mk 9 [("y", 5)])] k)) :=
  ⟨by decide, by decide, by decide,
    merge_top_into_sub_spec
      [("A", CatData.mk 2 [("x", 1)]), ("C", CatData.mk 9 [("y", 5)])]
      "A" "C" "y" (CatData.mk 2 [("x", 1)]) (CatData.mk 9 [("y", 5)])
      (by decide) (by decide) (by decide)⟩

/-- Counterexample to C1 as stated: merging a top-level category into one of
its own subcategories (source = target's parent) pops the source and then
aborts on the failed parent lookup, so the source count is never added at
the target's key — the store ends up empty instead of holding `y = 7`. -/
theorem merge_top_into_sub_counterexample :
    mergeCategoriesSel [("C", CatData.mk 2 [("y", 5)])]
        [NodeRef.top "C", NodeRef.sub "C" "y"] = []
    ∧ ¬ (subCount (mergeCategoriesSel [("C", CatData.mk 2 [("y", 5)])]
          [NodeRef.top "C", NodeRef.sub "C" "y"]) "C" "y"
        = subCount [("C", CatData.mk 2 [("y", 5)])] "C" "y"
          + (CatData.mk 2 [("y", 5)]).count) := by
  constructor
  · decide
  · decide

/-! ## Archive export (`ExportThread.run`, claims C2 and C6) -/

/-- One file met by `os.walk` during export: its base name, its path
relative to the source directory, and whether `zipf.write` succeeds on it. -/
structure XFile where
  name : String
  rel : String
  ok : Bool
deriving Repr, DecidableEq

/-- Selection test of `ExportThread.run`:
`file.endswith('.md') or file.lower().endswith(('.png', '.jpg', '.jpeg', '.gif', '.svg'))`. -/
def selectFile (name : String) : Bool :=
  pyEndsWith ".md" name
    || (pyEndsWith ".png" (pyLower name) || pyEndsWith ".jpg" (pyLower name)
      || pyEndsWith ".jpeg" (pyLower name) || pyEndsWith ".gif" (pyLower name)
      || pyEndsWith ".svg" (pyLower name))

/-- Python `enumerate(l, i)`. -/
def idxFrom {α : Type} (i : Nat) : List α → List (Nat × α)
  | [] => []
  | a :: rest => (i, a) :: idxFrom (i + 1) rest

/-- Archive loop of `ExportThread.run`: on success the file is written under
its relative path and one progress value `int((i+1)/total*100)` is emitted;
on failure the error is logged and the loop continues, emitting nothing. -/
def exportLoop (total : Nat) : Nat → List XFile → List String × List Nat
  | _, [] => ([], [])
  | i, f :: rest =>
    let r := exportLoop total (i + 1) rest
    if f.ok then (f.rel :: r.1, ((i + 1) * 100 / total) :: r.2) else r

/-- `ExportThread.run`: select the files, precompute the total, then run the
archive loop. Returns (archive entries, progress events). -/
def exportRun (files : List XFile) : List String × List Nat :=
  exportLoop (files.filter (fun f => selectFile f.name)).length 0
    (files.filter (fun f => selectFile f.name))

theorem exportLoop_eq (total : Nat) (l : List XFile) (i : Nat) :
    exportLoop total i l
      = (((idxFrom i l).filter (fun p => p.2.ok)).map (fun p => p.2.rel),
         ((idxFrom i l).filter (fun p => p.2.ok)).map (fun p => (p.1 + 1) * 100 / total)) := by
  induction l generalizing i with
  | nil => rfl
  | cons f rest ih =>
    show (let r := exportLoop total (i + 1) rest
      if f.ok then (f.rel :: r.1, ((i + 1) * 100 / total) :: r.2) else r) = _
    rw [ih]
    cases hok : f.ok <;> simp [idxFrom, hok]

theorem idxFrom_filter_length {α : Type} (q : α → Bool) (l : List α) (i : Nat) :
    ((idxFrom i l).filter (fun p => q p.2)).length = (l.filter q).length := by
  induction l generalizing i with
  | nil => rfl
  | cons a rest ih =>
    cases hq : q a <;> simp [idxFrom, hq, ih]

theorem idxFrom_filter_eq_self {α : Type} (q : α → Bool) (l : List α) (i : Nat)
    (h : ∀ a ∈ l, q a = true) :
    (idxFrom i l).filter (fun p => q p.2) = idxFrom i l := by
  induction l generalizing i with
  | nil => rfl
  | cons a rest ih =>
    simp only [idxFrom, List.filter_cons]
    rw [h a (List.mem_cons_self a rest)]
    simp only [if_true]
    rw [ih (i + 1) (fun b hb => h b (List.mem_cons_of_mem a hb))]

theorem idxFrom_map_snd {α β : Type} (g : α → β) (l : List α) (i : Nat) :
    (idxFrom i l).map (fun p => g p.2) = l.map g := by
  induction l generalizing i with
  | nil => rfl
  | cons a rest ih => simp [idxFrom, ih]

/-- Claim C2 (amended): a progress event is emitted only after a successful
addition — one event per selected file whose `zipf.write` succeeds, with
value `(attempted so far) * 100 / total` — and failed additions are skipped
without aborting and emit no event. -/
theorem export_progress_events_spec (files : List XFile) :
    (exportRun files).2
      = ((idxFrom 0 (files.filter (fun f => selectFile f.name))).filter
          (fun p => p.2.ok)).map
          (fun p => (p.1 + 1) * 100 / (files.filter (fun f => selectFile f.name)).length)
    ∧ (exportRun files).2.length
      = ((files.filter (fun f => selectFile f.name)).filter (fun f => f.ok)).length := by
  constructor
  · rw [show exportRun files = exportLoop (files.filter (fun f => selectFile f.name)).length 0
        (files.filter (fun f => selectFile f.name)) from rfl, exportLoop_eq]
  · rw [show exportRun files = exportLoop (files.filter (fun f => selectFile f.name)).length 0
        (files.filter (fun f => selectFile f.name)) from rfl, exportLoop_eq]
    simp only [List.length_map]
    exact idxFrom_filter_length _ _ 0

/-- Counterexample to C2 as stated: with two selected files of which the
second fails to be added, only one progress event is emitted (value 50),
not one per selected file. -/
theorem export_progress_counterexample :
    (exportRun [⟨"a.md", "a.md", true⟩, ⟨"b.md", "b.md", false⟩]).2 = [50]
    ∧ ((exportRun [⟨"a.md", "a.md", true⟩, ⟨"b.md", "b.md", false⟩]).2).length
      ≠ ([(⟨"a.md", "a.md", true⟩ : XFile), ⟨"b.md", "b.md", false⟩].filter
          (fun f => selectFile f.name)).length := by
  constructor
  · decide
  · decide

/-- Image extension set of the exporter. -/
def imageExts : List String := [".png", ".jpg", ".jpeg", ".gif", ".svg"]

/-- Modelled from the spec's words: a file is selected when its name ends in
the Markdown extension compared case-sensitively, or ends in one of the
fixed image extensions compared case-insensitively. -/
def specIncluded (name : String) : Prop :=
  pyEndsWith ".md" name = true ∨ ∃ e ∈ imageExts, pyEndsWith e (pyLower name) = true

/-- Claim C6: when every addition succeeds, the archive holds exactly the
relative paths of the files matching the extension predicate, and that
predicate coincides with the spec's (case-sensitive `.md`, case-insensitive
image extensions). -/
theorem export_selection_spec (files : List XFile) (hok : ∀ f ∈ files, f.ok = true) :
    (exportRun files).1 = (files.filter (fun f => selectFile f.name)).map (fun f => f.rel)
    ∧ ∀ name, selectFile name = true ↔ specIncluded name := by
  constructor
  · rw [show exportRun files = exportLoop (files.filter (fun f => selectFile f.name)).length 0
        (files.filter (fun f => selectFile f.name)) from rfl, exportLoop_eq]
    rw [idxFrom_filter_eq_self _ _ 0
      (fun f hf => hok f (List.mem_of_mem_filter hf)), idxFrom_map_snd]
  · intro name
    unfold selectFile specIncluded imageExts
    simp [or_assoc]

/-- Witness for C6 on the spec's example tree: `a.md`, `b.txt`, `img.PNG`
give an archive holding exactly `a.md` and `img.PNG`. -/
theorem export_selection_spec_witness :
    (∀ f ∈ [(⟨"a.md", "a.md", true⟩ : XFile), ⟨"b.txt", "b.txt", true⟩,
        ⟨"img.PNG", "img.PNG", true⟩], f.ok = true)
    ∧ (exportRun [(⟨"a.md", "a.md", true⟩ : XFile), ⟨"b.txt", "b.txt", true⟩,
        ⟨"img.PNG", "img.PNG", true⟩]).1
      = ([(⟨"a.md", "a.md", true⟩ : XFile), ⟨"b.txt", "b.txt", true⟩,
          ⟨"img.PNG", "img.PNG", true⟩].filter (fun f => selectFile f.name)).map
          (fun f => f.rel)
    ∧ (exportRun [(⟨"a.md", "a.md", true⟩ : XFile), ⟨"b.txt", "b.txt", true⟩,
        ⟨"img.PNG", "img.PNG", true⟩]).1 = ["a.md", "img.PNG"] :=
  ⟨by decide,
    (export_selection_spec [⟨"a.md", "a.md", true⟩, ⟨"b.txt", "b.txt", true⟩,
      ⟨"img.PNG", "img.PNG", true⟩] (by decide)).1,
    by decide⟩

/-! ## Category tree filter (`CategorySelector.filter_categories`, claim C7) -/

/-- A tree item of the category selector: name and child items. -/
inductive CTree where
  | node (name : String) (children : List CTree)
deriving Repr

/-- A tree item after filtering: name, hidden flag, filtered children. -/
inductive VTree where
  | node (name : String) (hidden : Bool) (children : List VTree)
deriving Repr

mutual
/-- `filter_item`: recursively filter an item; a node is visible when its
name contains the query (case-insensitively) or some child is visible; the
node's hidden flag is set to the negation. Returns (visible, marked item). -/
def filterItem (q : String) : CTree → Bool × VTree
  | CTree.node name cs =>
    let rs := filterChildren q cs
    let vis := pyIn (pyLower q) (pyLower name) || rs.any (fun p => p.1)
    (vis, VTree.node name (!vis) (rs.map (fun p => p.2)))

/-- Child loop of `filter_item`. -/
def filterChildren (q : String) : List CTree → List (Bool × VTree)
  | [] => []
  | c :: cs => filterItem q c :: filterChildren q cs
end

mutual
/-- Modelled from the spec: whether any node of the subtree (the node
itself or a descendant) matches the query case-insensitively. -/
def subtreeMatch (q : String) : CTree → Bool
  | CTree.node name cs => pyIn (pyLower q) (pyLower name) || anyMatch q cs

/-- Whether any node of a forest's subtrees matches the query. -/
def anyMatch (q : String) : List CTree → Bool
  | [] => false
  | c :: cs => subtreeMatch q c || anyMatch q cs
end

mutual
/-- Modelled from the spec: each node is hidden exactly when no node of its
own subtree matches the query. -/
def markTree (q : String) : CTree → VTree
  | CTree.node name cs =>
    VTree.node name (!(pyIn (pyLower q) (pyLower name) || anyMatch q cs))
      (markChildren q cs)

/-- `markTree` applied to each tree of a forest. -/
def markChildren (q : String) : List CTree → List VTree
  | [] => []
  | c :: cs => markTree q c :: markChildren q cs
end

/-- Hidden flag of a filtered item. -/
def rootHidden : VTree → Bool
  | VTree.node _ h _ => h

/-- Name of a tree item. -/
def nameOf : CTree → String
  | CTree.node n _ => n

/-- Children of a tree item. -/
def childrenOf : CTree → List CTree
  | CTree.node _ cs => cs

theorem anyMatch_eq (q : String) (cs : List CTree) :
    anyMatch q cs = cs.any (fun c => subtreeMatch q c) := by
  induction cs with
  | nil => rfl
  | cons c cs ih => simp [anyMatch, ih]

theorem markChildren_eq (q : String) (cs : List CTree) :
    markChildren q cs = cs.map (markTree q) := by
  induction cs with
  | nil => rfl
  | cons c cs ih => simp [markChildren, ih]

theorem list_any_map {α β : Type} (f : α → β) (p : β → Bool) (l : List α) :
    (l.map f).any p = l.any (fun a => p (f a)) := by
  induction l with
  | nil => rfl
  | cons a l ih => simp [ih]

mutual
theorem filterItem_eq (q : String) :
    ∀ t, filterItem q t = (subtreeMatch q t, markTree q t)
  | CTree.node name cs => by
    show (pyIn (pyLower q) (pyLower name) || (filterChildren q cs).any (fun p => p.1),
        VTree.node name
          (!(pyIn (pyLower q) (pyLower name) || (filterChildren q cs).any (fun p => p.1)))
          ((filterChildren q cs).map (fun p => p.2)))
      = (subtreeMatch q (CTree.node name cs), markTree q (CTree.node name cs))
    rw [filterChildren_eq q cs]
    show (_, VTree.node name _ _) = _
    rw [list_any_map, List.map_map]
    rw [show subtreeMatch q (CTree.node name cs)
        = (pyIn (pyLower q) (pyLower name) || anyMatch q cs) from rfl,
      show markTree q (CTree.node name cs)
        = VTree.node name (!(pyIn (pyLower q) (pyLower name) || anyMatch q cs))
            (markChildren q cs) from rfl,
      anyMatch_eq, markChildren_eq]
    rfl

theorem filterChildren_eq (q : String) :
    ∀ cs, filterChildren q cs = cs.map (fun c => (subtreeMatch q c, markTree q c))
  | [] => rfl
  | c :: cs => by
    rw [show filterChildren q (c :: cs) = filterItem q c :: filterChildren q cs from rfl,
      filterItem_eq q c, filterChildren_eq q cs, List.map_cons]
end

/-- Claim C7: the tree filter leaves a node visible iff its own name
case-insensitively contains the query or some descendant is visible; the
hidden flag is exactly the negation of visibility, so a matching node is
never hidden and a non-matching leaf is hidden. -/
theorem category_filter_spec (q : String) (t : CTree) :
    (filterItem q t).2 = markTree q t
    ∧ ((filterItem q t).1 = true ↔
        (pyIn (pyLower q) (pyLower (nameOf t)) = true
          ∨ ∃ c ∈ childrenOf t, (filterItem q c).1 = true))
    ∧ (rootHidden (filterItem q t).2 = false ↔ (filterItem q t).1 = true)
    ∧ (pyIn (pyLower q) (pyLower (nameOf t)) = true →
        rootHidden (filterItem q t).2 = false)
    ∧ (childrenOf t = [] → pyIn (pyLower q) (pyLower (nameOf t)) = false →
        rootHidden (filterItem q t).2 = true) := by
  obtain ⟨name, cs⟩ := t
  have hfi : filterItem q (CTree.node name cs)
      = (pyIn (pyLower q) (pyLower name) || (filterChildren q cs).any (fun p => p.1),
        VTree.node name
          (!(pyIn (pyLower q) (pyLower name) || (filterChildren q cs).any (fun p => p.1)))
          ((filterChildren q cs).map (fun p => p.2))) := rfl
  refine ⟨(filterItem_eq q _).symm ▸ rfl, ?_, ?_, ?_, ?_⟩
  · rw [hfi]
    show (pyIn (pyLower q) (pyLower name) || (filterChildren q cs).any (fun p => p.1)) = true
      ↔ _
    rw [filterChildren_eq q cs, list_any_map]
    simp only [nameOf, childrenOf, Bool.or_eq_true, List.any_eq_true]
    constructor
    · rintro (h | ⟨c, hc, hm⟩)
      · exact Or.inl h
      · exact Or.inr ⟨c, hc, by rw [filterItem_eq q c]; exact hm⟩
    · rintro (h | ⟨c, hc, hm⟩)
      · exact Or.inl h
      · exact Or.inr ⟨c, hc, by rw [filterItem_eq q c] at hm; exact hm⟩
  · rw [hfi]
    show (!(pyIn (pyLower q) (pyLower name) || (filterChildren q cs).any (fun p => p.1)))
        = false ↔ _
    cases hb : pyIn (pyLower q) (pyLower name) || (filterChildren q cs).any (fun p => p.1) with
    | false => simp
    | true => simp
  · intro h
    rw [hfi]
    show (!(pyIn (pyLower q) (pyLower name) || (filterChildren q cs).any (fun p => p.1)))
        = false
    rw [show pyIn (pyLower q) (pyLower (nameOf (CTree.node name cs)))
        = pyIn (pyLower q) (pyLower name) from rfl] at h
    rw [h]
    rfl
  · intro hcs h
    rw [show childrenOf (CTree.node name cs) = cs from rfl] at hcs
    subst hcs
    rw [hfi]
    show (!(pyIn (pyLower q) (pyLower name) || (filterChildren q []).any (fun p => p.1)))
        = true
    rw [show pyIn (pyLower q) (pyLower (nameOf (CTree.node name [])))
        = pyIn (pyLower q) (pyLower name) from rfl] at h
    rw [h]
    rfl

/-- Witness for C7 on the spec's example: the tree `Main -> news`, filtered
by `"news"`, keeps both nodes visible; filtered by `"zzz"`, hides both. -/
theorem category_filter_spec_witness :
    pyIn (pyLower "news") (pyLower "news") = true
    ∧ rootHidden (filterItem "news" (CTree.node "news" [])).2 = false
    ∧ rootHidden (filterItem "news" (CTree.node "Main" [CTree.node "news" []])).2 = false
    ∧ childrenOf (CTree.node "news" []) = []
    ∧ pyIn (pyLower "zzz") (pyLower "news") = false
    ∧ rootHidden (filterItem "zzz" (CTree.node "news" [])).2 = true
    ∧ rootHidden (filterItem "zzz" (CTree.node "Main" [CTree.node "news" []])).2 = true :=
  ⟨by decide,
    (category_filter_spec "news" (CTree.node "news" [])).2.2.2.1 (by decide),
    by decide,
    rfl,
    by decide,
    (category_filter_spec "zzz" (CTree.node "news" [])).2.2.2.2 rfl (by decide),
    by decide⟩

/-! ## Flat article filter (`HexoEditor.filter_articles`, claim C8) -/

/-- Display string of an article in the list: `f"{title} ({date})"`. -/
def displayText (a : Article) : String := a.title ++ " (" ++ a.date ++ ")"

/-- Loop of `filter_articles`: keep each article whose title contains the
query case-insensitively, recording its display text and original index. -/
def filterArticlesAux (q : String) : Nat → List Article → List String × List Nat
  | _, [] => ([], [])
  | i, a :: rest =>
    let r := filterArticlesAux q (i + 1) rest
    if pyIn (pyLower q) (pyLower a.title) then (displayText a :: r.1, i :: r.2) else r

/-- `HexoEditor.filter_articles`: returns the displayed entries and the
parallel `filtered_indices` array. -/
def filterArticles (arts : List Article) (q : String) : List String × List Nat :=
  filterArticlesAux q 0 arts

theorem idxFrom_le {α : Type} (l : List α) (i : Nat) (p : Nat × α)
    (hp : p ∈ idxFrom i l) : i ≤ p.1 := by
  induction l generalizing i with
  | nil => cases hp
  | cons a rest ih =>
    rcases List.mem_cons.mp hp with h | h
    · subst h
      exact Nat.le_refl i
    · exact Nat.le_of_succ_le (ih (i + 1) h)

theorem idxFrom_get {α : Type} (l : List α) (i : Nat) (p : Nat × α)
    (hp : p ∈ idxFrom i l) : l.get? (p.1 - i) = some p.2 := by
  induction l generalizing i with
  | nil => cases hp
  | cons a rest ih =>
    rcases List.mem_cons.mp hp with h | h
    · subst h
      simp
    · have h1 : i + 1 ≤ p.1 := idxFrom_le rest (i + 1) p h
      have h2 : p.1 - i = (p.1 - (i + 1)) + 1 := by omega
      rw [h2]
      simpa using ih (i + 1) h

theorem filterArticlesAux_eq (q : String) (arts : List Article) (i : Nat) :
    filterArticlesAux q i arts
      = (((idxFrom i arts).filter (fun p => pyIn (pyLower q) (pyLower p.2.title))).map
          (fun p => displayText p.2),
        ((idxFrom i arts).filter (fun p => pyIn (pyLower q) (pyLower p.2.title))).map
          (fun p => p.1)) := by
  induction arts generalizing i with
  | nil => rfl
  | cons a rest ih =>
    show (let r := filterArticlesAux q (i + 1) rest
      if pyIn (pyLower q) (pyLower a.title) then (displayText a :: r.1, i :: r.2) else r) = _
    rw [ih]
    cases hm : pyIn (pyLower q) (pyLower a.title) <;> simp [idxFrom, hm]

theorem filterArticlesAux_indices_le (q : String) (arts : List Article) (i j : Nat)
    (hj : j ∈ (filterArticlesAux q i arts).2) : i ≤ j := by
  rw [filterArticlesAux_eq] at hj
  simp only [List.mem_map] at hj
  obtain ⟨p, hp, hpj⟩ := hj
  subst hpj
  exact idxFrom_le arts i p (List.mem_of_mem_filter hp)

theorem filterArticlesAux_indices_sorted (q : String) (arts : List Article) (i : Nat) :
    (filterArticlesAux q i arts).2.Pairwise (· < ·) := by
  induction arts generalizing i with
  | nil => exact List.Pairwise.nil
  | cons a rest ih =>
    show (let r := filterArticlesAux q (i + 1) rest
      if pyIn (pyLower q) (pyLower a.title)
        then (displayText a :: r.1, i :: r.2) else r).2.Pairwise (· < ·)
    cases hm : pyIn (pyLower q) (pyLower a.title) with
    | false => simpa using ih (i + 1)
    | true =>
      refine List.Pairwise.cons ?_ (ih (i + 1))
      intro j hj
      have := filterArticlesAux_indices_le q rest (i + 1) j hj
      omega

/-- Claim C8: the article filter returns exactly the display texts of the
articles whose title case-insensitively contains the query, in original
order, together with a parallel strictly increasing index array mapping each
filtered position back to the original index, so the entry at filtered
position `j` resolves to that original article. -/
theorem filter_articles_spec (arts : List Article) (q : String) :
    (filterArticles arts q).1
      = ((idxFrom 0 arts).filter (fun p => pyIn (pyLower q) (pyLower p.2.title))).map
          (fun p => displayText p.2)
    ∧ (filterArticles arts q).2
      = ((idxFrom 0 arts).filter (fun p => pyIn (pyLower q) (pyLower p.2.title))).map
          (fun p => p.1)
    ∧ (∀ j, (filterArticles arts q).1.get? j
        = ((filterArticles arts q).2.get? j).bind (fun i => (arts.get? i).map displayText))
    ∧ (filterArticles arts q).2.Pairwise (· < ·) := by
  refine ⟨(congrArg Prod.fst (filterArticlesAux_eq q arts 0)),
    (congrArg Prod.snd (filterArticlesAux_eq q arts 0)), ?_, ?_⟩
  · intro j
    rw [show filterArticles arts q = filterArticlesAux q 0 arts from rfl,
      filterArticlesAux_eq]
    simp only [List.get?_map]
    cases hF : ((idxFrom 0 arts).filter
        (fun p => pyIn (pyLower q) (pyLower p.2.title))).get? j with
    | none => rfl
    | some p =>
      have hmem : p ∈ idxFrom 0 arts :=
        List.mem_of_mem_filter (List.get?_mem hF)
      have hget : arts.get? p.1 = some p.2 := by
        have := idxFrom_get arts 0 p hmem
        simpa using this
      have hget2 : arts[p.1]? = some p.2 := by
        rw [← List.get?_eq_getElem?]
        exact hget
      simp [hget2]
  · exact filterArticlesAux_indices_sorted q arts 0

/-! ## Batch scan (`FileLoader.run`, claim C9) -/

/-- A file found by `rglob("*.md")`: its path and its text content. -/
structure MFile where
  path : String
  content : String
deriving Repr, DecidableEq

/-- Result of parsing a front-matter segment: the article fields after the
`metadata.get(...)` defaults have been applied. -/
structure Meta where
  title : String
  date : String
  categories : List String
  tags : List String
deriving Repr, DecidableEq, Inhabited

/-- Defaults used when a file has no front matter (`metadata = {}`). -/
def metaDefault : Meta := ⟨"未命名", "無日期", [], []⟩

/-- The article-info dictionary built per file by `FileLoader.run`. -/
def mkInfo (m : Meta) (path : String) : Article :=
  ⟨m.title, m.date, path, m.categories, m.tags⟩

/-- Per-file decode of `FileLoader.run`, abstracting `yaml.safe_load` (plus
the `.get` defaults) as `parse`; `none` models any exception — a failed
three-way unpack of `content.split('---', 2)` or a YAML/shape error. -/
def loadFile (parse : String → Option Meta) (f : MFile) : Option Article :=
  if pyStartsWith "---" f.content then
    match pySplit "---".data 2 f.content.data with
    | [_, fm, _] =>
      match parse (String.mk fm) with
      | some m => some (mkInfo m f.path)
      | none => none
    | _ => none
  else some (mkInfo metaDefault f.path)

/-- File loop of `FileLoader.run`: a successfully decoded file appends its
article and emits one progress value `int((i+1)/total*100)`; a failing file
is logged and skipped, emitting nothing. -/
def scanLoop (parse : String → Option Meta) (total : Nat) :
    Nat → List MFile → List Article × List Nat
  | _, [] => ([], [])
  | i, f :: rest =>
    let r := scanLoop parse total (i + 1) rest
    match loadFile parse f with
    | some info => (info :: r.1, ((i + 1) * 100 / total) :: r.2)
    | none => r

/-- Python `<` on character lists: lexicographic by code point. -/
def pyLtChars : List Char → List Char → Bool
  | [], [] => false
  | [], _ :: _ => true
  | _ :: _, [] => false
  | a :: as, b :: bs =>
    if a.val < b.val then true else if b.val < a.val then false else pyLtChars as bs

/-- Python `<` on strings. -/
def pyStrLt (a b : String) : Bool := pyLtChars a.data b.data

/-- Stable descending insertion by date (plain string comparison). -/
def insertDesc (a : Article) : List Article → List Article
  | [] => [a]
  | b :: rest => if pyStrLt a.date b.date then b :: insertDesc a rest else a :: b :: rest

/-- `articles.sort(key=..., reverse=True)`: stable sort by date descending
under plain string comparison. -/
def sortByDateDesc (l : List Article) : List Article := l.foldr insertDesc []

/-- `FileLoader.run`: walk the file list, decode each file, then sort the
collected articles by date descending. Returns (articles, progress events). -/
def fileLoaderRun (parse : String → Option Meta) (files : List MFile) :
    List Article × List Nat :=
  (sortByDateDesc (scanLoop parse files.length 0 files).1,
   (scanLoop parse files.length 0 files).2)

theorem scanLoop_fst (parse : String → Option Meta) (total : Nat)
    (files : List MFile) (i : Nat) :
    (scanLoop parse total i files).1 = files.filterMap (loadFile parse) := by
  induction files generalizing i with
  | nil => rfl
  | cons f rest ih =>
    show (let r := scanLoop parse total (i + 1) rest
      match loadFile parse f with
      | some info => (info :: r.1, ((i + 1) * 100 / total) :: r.2)
      | none => r).1 = _
    cases hl : loadFile parse f <;> simp [List.filterMap_cons, hl, ih]

theorem scanLoop_snd (parse : String → Option Meta) (total : Nat)
    (files : List MFile) (i : Nat) :
    (scanLoop parse total i files).2
      = ((idxFrom i files).filter (fun p => (loadFile parse p.2).isSome)).map
          (fun p => (p.1 + 1) * 100 / total) := by
  induction files generalizing i with
  | nil => rfl
  | cons f rest ih =>
    show (let r := scanLoop parse total (i + 1) rest
      match loadFile parse f with
      | some info => (info :: r.1, ((i + 1) * 100 / total) :: r.2)
      | none => r).2 = _
    cases hl : loadFile parse f <;> simp [idxFrom, hl, ih]

theorem insertDesc_perm (a : Article) (l : List Article) :
    (insertDesc a l).Perm (a :: l) := by
  induction l with
  | nil => exact List.Perm.refl _
  | cons b rest ih =>
    unfold insertDesc
    by_cases h : pyStrLt a.date b.date = true
    · rw [if_pos h]
      exact (List.Perm.cons b ih).trans (List.Perm.swap a b rest)
    · rw [if_neg h]

theorem sortByDateDesc_perm (l : List Article) : (sortByDateDesc l).Perm l := by
  induction l with
  | nil => exact List.Perm.refl _
  | cons a rest ih =>
    show (insertDesc a (sortByDateDesc rest)).Perm (a :: rest)
    exact (insertDesc_perm a (sortByDateDesc rest)).trans (List.Perm.cons a ih)

theorem length_filterMap_eq_filter {α β : Type} (g : α → Option β) (l : List α) :
    (l.filterMap g).length = (l.filter (fun a => (g a).isSome)).length := by
  induction l with
  | nil => rfl
  | cons a rest ih =>
    cases hg : g a <;> simp [List.filterMap_cons, hg, ih]

theorem filterMap_eraseIdx {α β : Type} (g : α → Option β) (l : List α) (i : Nat)
    (x : α) (hx : l.get? i = some x) (hg : g x = none) :
    l.filterMap g = (l.eraseIdx i).filterMap g := by
  induction l generalizing i with
  | nil => cases hx
  | cons a rest ih =>
    cases i with
    | zero =>
      have hax : a = x := by
        have : some a = some x := hx
        exact Option.some_injective _ this
      subst hax
      simp [List.filterMap_cons, hg]
    | succ i =>
      have hx' : rest.get? i = some x := hx
      show List.filterMap g (a :: rest) = List.filterMap g (a :: rest.eraseIdx i)
      cases hg' : g a <;> simp [List.filterMap_cons, hg', ih i hx']

theorem loadFile_none_of_unterminated (parse : String → Option Meta) (f : MFile)
    (hstart : pyStartsWith "---" f.content = true)
    (hnosecond : isInfixB "---".data (f.content.data.drop 3) = false) :
    loadFile parse f = none := by
  unfold pyStartsWith at hstart
  rw [List.isPrefixOf_iff_prefix] at hstart
  obtain ⟨rest, hrest⟩ := hstart
  have h3 : ("---".data : List Char).length = 3 := rfl
  have hdrop : f.content.data.drop 3 = rest := by
    rw [← hrest, ← h3]
    exact List.drop_left _ _
  have hinfix : isInfixB "---".data rest = false := hdrop ▸ hnosecond
  unfold loadFile
  rw [if_pos (by unfold pyStartsWith
                 rw [List.isPrefixOf_iff_prefix]
                 exact ⟨rest, hrest⟩)]
  have h1 : pySplit "---".data 2 ("---".data ++ rest)
      = [] :: pySplit "---".data 1 rest := by
    show (match findDelim "---".data ("---".data ++ rest) with
      | none => ["---".data ++ rest]
      | some (pre, post) => pre :: pySplit "---".data 1 post) = _
    rw [findDelim_at_start _ _ (by decide)]
  have h2 : pySplit "---".data 1 rest = [rest] := by
    show (match findDelim "---".data rest with
      | none => [rest]
      | some (pre, post) => pre :: pySplit "---".data 0 post) = _
    rw [findDelim_none_of_no_occurrence _ _ hinfix]
  have hsplit : pySplit "---".data 2 f.content.data = [[], rest] := by
    rw [← hrest, h1, h2]
  rw [hsplit]

/-- Claim C9: a file whose text starts with the delimiter but has no second
delimiter occurrence fails the three-way split, so it is skipped — it
contributes nothing to the completed article list (the other files alone
do), no progress event is emitted for it, and the scan still completes. -/
theorem scan_skips_unterminated_front_matter (parse : String → Option Meta)
    (files : List MFile) (i : Nat) (f : MFile)
    (hf : files.get? i = some f)
    (hstart : pyStartsWith "---" f.content = true)
    (hnosecond : isInfixB "---".data (f.content.data.drop 3) = false) :
    loadFile parse f = none
    ∧ (fileLoaderRun parse files).1.Perm
        ((files.eraseIdx i).filterMap (loadFile parse))
    ∧ (fileLoaderRun parse files).2.length
        = ((files.eraseIdx i).filterMap (loadFile parse)).length
    ∧ (fileLoaderRun parse files).2.length + 1 ≤ files.length := by
  have hnone : loadFile parse f = none :=
    loadFile_none_of_unterminated parse f hstart hnosecond
  have herase : files.filterMap (loadFile parse)
      = (files.eraseIdx i).filterMap (loadFile parse) :=
    filterMap_eraseIdx _ files i f hf hnone
  have hlen : (fileLoaderRun parse files).2.length
      = (files.filterMap (loadFile parse)).length := by
    show (scanLoop parse files.length 0 files).2.length = _
    rw [scanLoop_snd, List.length_map,
      idxFrom_filter_length (fun g => (loadFile parse g).isSome) files 0,
      length_filterMap_eq_filter]
  refine ⟨hnone, ?_, ?_, ?_⟩
  · show (sortByDateDesc (scanLoop parse files.length 0 files).1).Perm _
    rw [scanLoop_fst, herase]
    exact sortByDateDesc_perm _
  · rw [hlen, herase]
  · have hi : i < files.length := by
      by_contra hcon
      rw [List.get?_eq_none.mpr (Nat.le_of_not_lt hcon)] at hf
      cases hf
    have h1 : ((files.eraseIdx i).filterMap (loadFile parse)).length
        ≤ (files.eraseIdx i).length := List.length_filterMap_le _ _
    have h2 : (files.eraseIdx i).length = files.length - 1 := by
      rw [List.length_eraseIdx]
      simp [hi]
    rw [hlen, herase]
    omega

/-- Witness for C9: one file whose content is `---abc` (opening delimiter,
no second one) is skipped; the scan completes with no articles, no events. -/
theorem scan_skips_unterminated_front_matter_witness :
    ([⟨"p.md", "---abc"⟩] : List MFile).get? 0 = some ⟨"p.md", "---abc"⟩
    ∧ pyStartsWith "---" "---abc" = true
    ∧ isInfixB "---".data ("---abc".data.drop 3) = false
    ∧ (loadFile (fun _ => some metaDefault) ⟨"p.md", "---abc"⟩ = none
      ∧ (fileLoaderRun (fun _ => some metaDefault) [⟨"p.md", "---abc"⟩]).1.Perm
          (([⟨"p.md", "---abc"⟩] : List MFile).eraseIdx 0
            |>.filterMap (loadFile (fun _ => some metaDefault)))
      ∧ (fileLoaderRun (fun _ => some metaDefault) [⟨"p.md", "---abc"⟩]).2.length
          = (([⟨"p.md", "---abc"⟩] : List MFile).eraseIdx 0
            |>.filterMap (loadFile (fun _ => some metaDefault))).length
      ∧ (fileLoaderRun (fun _ => some metaDefault) [⟨"p.md", "---abc"⟩]).2.length + 1
          ≤ ([⟨"p.md", "---abc"⟩] : List MFile).length) :=
  ⟨rfl, by decide, by decide,
    scan_skips_unterminated_front_matter (fun _ => some metaDefault)
      [⟨"p.md", "---abc"⟩] 0 ⟨"p.md", "---abc"⟩ rfl (by decide) (by decide)⟩

/-! ## Saving an article into the index (`HexoEditor.save_article`, claim C10) -/

/-- In-place update performed on a matching index record: title, date,
categories and tags are replaced, the path (and anything else) is kept. -/
def updArticle (a : Article) (t d : String) (c g : List String) : Article :=
  { a with title := t, date := d, categories := c, tags := g }

/-- Index-update loop of `save_article`: the first record whose path equals
the saved path is updated in place and the loop breaks; if none matches, a
new record is appended at the end. -/
def saveAux (p t d : String) (c g : List String) : List Article → List Article
  | [] => [⟨t, d, p, c, g⟩]
  | a :: rest =>
    if a.path = p then updArticle a t d c g :: rest else a :: saveAux p t d c g rest

/-- `HexoEditor.save_article` restricted to its effect on `self.articles`. -/
def saveArticle (arts : List Article) (p t d : String) (c g : List String) :
    List Article :=
  saveAux p t d c g arts

/-- The index ordering `FileLoader.run` establishes: dates descending under
plain string comparison. -/
def sortedByDateDesc (l : List Article) : Prop :=
  List.Chain' (fun a b => pyStrLt a.date b.date = false) l

/-- Claim C10: saving an article with a new path appends the record at the
end (so a date-desc-sorted index need not stay sorted); saving to an
existing path updates the first matching record in place and leaves every
other record untouched. -/
theorem save_article_spec :
    (∀ (arts : List Article) (p t d : String) (c g : List String),
      (∀ a ∈ arts, a.path ≠ p) →
      saveArticle arts p t d c g = arts ++ [⟨t, d, p, c, g⟩])
    ∧ (∀ (arts : List Article) (p t d : String) (c g : List String) (i : Nat)
        (a : Article),
      arts.get? i = some a → a.path = p →
      (∀ j b, j < i → arts.get? j = some b → b.path ≠ p) →
      saveArticle arts p t d c g = arts.set i (updArticle a t d c g)
      ∧ ∀ j, j ≠ i → (saveArticle arts p t d c g).get? j = arts.get? j)
    ∧ (sortedByDateDesc [⟨"t1", "2024", "p1", [], []⟩]
      ∧ saveArticle [⟨"t1", "2024", "p1", [], []⟩] "p2" "t2" "2025" [] []
          = [⟨"t1", "2024", "p1", [], []⟩, ⟨"t2", "2025", "p2", [], []⟩]
      ∧ ¬ sortedByDateDesc
          [⟨"t1", "2024", "p1", [], []⟩, ⟨"t2", "2025", "p2", [], []⟩]) := by
  refine ⟨?_, ?_, ?_, ?_, ?_⟩
  · intro arts p t d c g h
    induction arts with
    | nil => rfl
    | cons a rest ih =>
      show (if a.path = p then updArticle a t d c g :: rest
        else a :: saveAux p t d c g rest) = _
      rw [if_neg (h a (List.mem_cons_self a rest))]
      rw [show saveAux p t d c g rest = saveArticle rest p t d c g from rfl,
        ih (fun b hb => h b (List.mem_cons_of_mem a hb))]
      rfl
  · intro arts p t d c g i a hget hpath hfirst
    induction arts generalizing i with
    | nil => cases hget
    | cons hd rest ih =>
      cases i with
      | zero =>
        have hhd : hd = a := Option.some_injective _ hget
        subst hhd
        constructor
        · show (if hd.path = p then updArticle hd t d c g :: rest
            else hd :: saveAux p t d c g rest) = _
          rw [if_pos hpath]
          rfl
        · intro j hj
          match j, hj with
          | Nat.succ j, _ =>
            show (if hd.path = p then updArticle hd t d c g :: rest
              else hd :: saveAux p t d c g rest).get? (j + 1) = _
            rw [if_pos hpath]
            rfl
      | succ i =>
        have hhd : hd.path ≠ p :=
          hfirst 0 hd (Nat.succ_pos i) rfl
        have hrest := ih i hget
          (fun j b hj hb => hfirst (j + 1) b (Nat.succ_lt_succ hj) hb)
        constructor
        · show (if hd.path = p then updArticle hd t d c g :: rest
            else hd :: saveAux p t d c g rest) = _
          rw [if_neg hhd,
            show saveAux p t d c g rest = saveArticle rest p t d c g from rfl,
            hrest.1]
          rfl
        · intro j hj
          show (if hd.path = p then updArticle hd t d c g :: rest
            else hd :: saveAux p t d c g rest).get? j = _
          rw [if_neg hhd]
          match j, hj with
          | 0, _ => rfl
          | Nat.succ j, hj =>
            show (saveAux p t d c g rest).get? j = rest.get? j
            exact hrest.2 j (fun he => hj (by rw [he]))
  · show List.Chain' _ [_]
    exact List.chain'_singleton _
  · decide
  · show ¬ List.Chain' _ [_, _]
    rw [List.chain'_pair]
    decide

/-- Witness for C10: saving a new path appends after the existing entries. -/
theorem save_article_spec_witness :
    (∀ a ∈ ([⟨"t1", "2024", "p1", [], []⟩] : List Article), a.path ≠ "p2")
    ∧ saveArticle [⟨"t1", "2024", "p1", [], []⟩] "p2" "t2" "2025" [] []
        = [⟨"t1", "2024", "p1", [], []⟩] ++ [⟨"t2", "2025", "p2", [], []⟩] :=
  ⟨by decide,
    save_article_spec.1 [⟨"t1", "2024", "p1", [], []⟩] "p2" "t2" "2025" [] []
      (by decide)⟩

end HexoEditor
